
import Mathlib

/-!
Verification of the polygon-triangulation core (`cutting.py`).

The data model is shallowly embedded: a `Polygon` is a record of
boundary vertices (identified by object ids drawn from an allocation
counter, with their positions stored in an association-list heap, so
that object identity and later position edits are expressible), the
`closed`/`clockwise` flags, the vertex counter, and the recorded
diagonal ("cut") list.  Vertex coordinates are integers, exactly as in
the Qt `QPoint`-based source.  The shapely segment-segment intersection
used by `Polygon.intersects` is embedded as an exact rational
computation `segInter`; a collinear positive-length overlap yields a
`LineString` in the source, whose missing `.x` attribute makes the
Python code crash — this is modelled by the `Err.attributeError`
outcome.  The ear-removal loop of `triangulate` is embedded as a step
function on a working-cycle state plus a fuel-indexed iteration.
-/

namespace Cutting

/-- Integer 2-D point (`QPoint` coordinates). -/
abbrev Pt := Int × Int

/-- `Vector2D.cross_product`. -/
def crossProduct (u v : Pt) : Int := u.1 * v.2 - u.2 * v.1

/-- `Vector2D.from_points(start, end)`: the vector `end - start`. -/
def fromPoints (s e : Pt) : Pt := (e.1 - s.1, e.2 - s.2)

/-- `left_turn(u, v)`: the sign of `u × v`. -/
def leftTurn (u v : Pt) : Int :=
  if crossProduct u v < 0 then -1 else if crossProduct u v = 0 then 0 else 1

/-- Exact rational 2-D point stored as an unreduced pair of fractions
over a common denominator: `(nx, ny, d)` denotes `(nx/d, ny/d)` with
`d ≠ 0` (the coordinates of a shapely intersection point). -/
abbrev FPt := Int × Int × Int

/-- Integer point as an `FPt` with denominator 1. -/
def toF (p : Pt) : FPt := (p.1, p.2, 1)

/-- A segment with integer endpoints (a two-point `LineString`). -/
abbrev Seg := Pt × Pt

/-- Result of intersecting two segments, as shapely classifies it:
empty, a single point, or a positive-length collinear overlap
(a `LineString`, which has no `.x`/`.y`). -/
inductive SegInter where
  | empty : SegInter
  | point : FPt → SegInter
  | overlap : SegInter
deriving DecidableEq

/-- Whether integer point `p` lies on the closed segment `a`–`b`. -/
def onSeg (p a b : Pt) : Bool :=
  if crossProduct (fromPoints a b) (fromPoints a p) = 0 then
    if min a.1 b.1 ≤ p.1 ∧ p.1 ≤ max a.1 b.1 ∧
       min a.2 b.2 ≤ p.2 ∧ p.2 ≤ max a.2 b.2 then true else false
  else false

/-- Exact segment-segment intersection (the model of
`line.intersection(edge)` on two-point `LineString`s). -/
def segInter (s1 s2 : Seg) : SegInter :=
  let a := s1.1; let b := s1.2; let c := s2.1; let d := s2.2
  if a = b ∧ c = d then (if a = c then .point (toF a) else .empty)
  else if a = b then (if onSeg a c d then .point (toF a) else .empty)
  else if c = d then (if onSeg c a b then .point (toF c) else .empty)
  else
    let r := fromPoints a b
    let s := fromPoints c d
    let den := crossProduct r s
    if den ≠ 0 then
      let tN := crossProduct (fromPoints a c) s
      let uN := crossProduct (fromPoints a c) r
      if (0 ≤ tN ∧ tN ≤ den ∧ 0 ≤ uN ∧ uN ≤ den) ∨
         (den ≤ tN ∧ tN ≤ 0 ∧ den ≤ uN ∧ uN ≤ 0) then
        .point (a.1 * den + tN * r.1, a.2 * den + tN * r.2, den)
      else .empty
    else if crossProduct (fromPoints a c) r ≠ 0 then .empty
    else
      let pr := fun (p : Pt) => if r.2.natAbs ≤ r.1.natAbs then p.1 else p.2
      let lo := max (min (pr a) (pr b)) (min (pr c) (pr d))
      let hi := min (max (pr a) (pr b)) (max (pr c) (pr d))
      if hi < lo then .empty
      else if lo = hi then
        if pr a = lo then .point (toF a)
        else if pr b = lo then .point (toF b)
        else if pr c = lo then .point (toF c)
        else .point (toF d)
      else .overlap

/-- Coordinatewise Python `int()` truncation toward zero of the exact
rational point (`Point(int(intersection.x), int(intersection.y))`). -/
def truncPt (q : FPt) : Pt := (q.1.tdiv q.2.2, q.2.1.tdiv q.2.2)

/-- The typed failures of the core, plus `attributeError` for the
unguarded crashes (`None.to_tuple()`; `.x` on a `LineString`). -/
inductive Err where
  | selfIntersection : Err
  | polygonClosed : Err
  | polygonIsNotClosed : Err
  | notEnoughVertexes : Err
  | attributeError : Err
deriving DecidableEq

instance : DecidableEq (Except Err Bool)
  | .ok a, .ok b =>
    if h : a = b then .isTrue (by rw [h]) else .isFalse (fun hh => h (Except.ok.inj hh))
  | .ok _, .error _ => .isFalse (fun hh => Except.noConfusion hh)
  | .error _, .ok _ => .isFalse (fun hh => Except.noConfusion hh)
  | .error e, .error f =>
    if h : e = f then .isTrue (by rw [h])
    else .isFalse (fun hh => h (Except.error.inj hh))

/-- The edge loop of `Polygon.intersects`: test `line` against each
edge in turn; a single-point intersection whose truncated coordinates
coincide with an endpoint of that edge is skipped when `noVertexes`
is true; a collinear overlap makes the source crash (`.x` on a
`LineString`). -/
def intersectsGo (noVertexes : Bool) (line : Seg) : List Seg → Except Err Bool
  | [] => .ok false
  | e :: rest =>
    match segInter line e with
    | .empty => intersectsGo noVertexes line rest
    | .overlap => if noVertexes then .error .attributeError else .ok true
    | .point q =>
      if noVertexes then
        if truncPt q = e.1 ∨ truncPt q = e.2 then intersectsGo noVertexes line rest
        else .ok true
      else .ok true

/-- The edges `Polygon.intersects` builds: consecutive vertex pairs in
boundary order.  Note that for a closed polygon the wrap-around edge
from the last vertex back to the first is not produced. -/
def edgesOfPts : List Pt → List Seg
  | a :: b :: rest => (a, b) :: edgesOfPts (b :: rest)
  | _ => []

/-- The observable state of a `Polygon`.  `verts` lists the boundary
vertices' object ids in insertion order (first to last); `heap` maps
object ids to current positions; `nextOid` is the allocation counter
that models creation of fresh `Vertex` objects; `cuts` records the
diagonals as pairs of object ids. -/
structure PState where
  verts : List Nat
  heap : List (Nat × Pt)
  nextOid : Nat
  vertexCount : Nat
  closed : Bool
  clockwise : Bool
  cuts : List (Nat × Nat)
deriving DecidableEq

/-- Position of the object with id `o` (default `(0,0)` for a dangling id). -/
def posOf (h : List (Nat × Pt)) (o : Nat) : Pt :=
  match h.find? (fun kv => kv.1 == o) with
  | some kv => kv.2
  | none => (0, 0)

/-- The boundary positions in order (`iter_vertexes`, projected to coordinates). -/
def posList (s : PState) : List Pt := s.verts.map (posOf s.heap)

/-- A freshly constructed `Polygon()` whose allocator starts at `base`. -/
def emptyPState (base : Nat) : PState :=
  { verts := [], heap := [], nextOid := base, vertexCount := 0,
    closed := false, clockwise := true, cuts := [] }

/-- `Polygon.intersects(line)` with the default `no_vertexes=True`. -/
def intersectsM (s : PState) (line : Seg) : Except Err Bool :=
  intersectsGo true line (edgesOfPts (posList s))

/-- The successful tail of `add_vertex`: allocate the vertex and append it. -/
def appendV (s : PState) (p : Pt) : PState :=
  { s with verts := s.verts ++ [s.nextOid], heap := s.heap ++ [(s.nextOid, p)],
           nextOid := s.nextOid + 1, vertexCount := s.vertexCount + 1 }

/-- `Polygon.add_vertex(point)`.  Returns the raised failure (if any)
together with the state after the call. -/
def addVertex (s : PState) (p : Pt) : Option Err × PState :=
  if s.closed then (some .polygonClosed, s)
  else
    match s.verts.getLast? with
    | none => (none, appendV s p)
    | some lastO =>
      match intersectsGo true (posOf s.heap lastO, p) (edgesOfPts (posList s)) with
      | .error e => (some e, s)
      | .ok true => (some .selfIntersection, s)
      | .ok false => (none, appendV s p)

/-- `add_vertex` for each point of a list in turn, stopping at the
first failure (the loop that builds `triangulate`'s working copy). -/
def addAll : List Pt → PState → Option Err × PState
  | [], s => (none, s)
  | p :: rest, s =>
    match addVertex s p with
    | (some e, s₂) => (some e, s₂)
    | (none, s₂) => addAll rest s₂

/-- Strict `(y, x)`-lexicographic comparison used to pick the extreme
vertex in `close`. -/
def keyLtB (a b : Pt) : Bool :=
  if a.2 < b.2 then true else if a.2 = b.2 ∧ a.1 < b.1 then true else false

/-- Index of the first `(y, x)`-minimal point (what
`sorted(key=(y, x))[0]` selects, by sort stability). -/
def idxMinGo : List Pt → Nat → Pt → Nat → Nat
  | [], bi, _, _ => bi
  | p :: rest, bi, bp, i =>
    if keyLtB p bp then idxMinGo rest i p (i + 1) else idxMinGo rest bi bp (i + 1)

/-- Index of the `(y, x)`-minimal point of a list (0 for an empty list). -/
def idxMinYX : List Pt → Nat
  | [] => 0
  | p :: rest => idxMinGo rest 0 p 1

/-- The orientation step at the end of `close`: at the `(y, x)`-minimal
vertex, a left turn (`+1`) from the vector to its next neighbour to the
vector to its previous neighbour sets `clockwise := False`; otherwise
the flag keeps its previous value (`True` at construction). -/
def closeClockwise (ps : List Pt) (old : Bool) : Bool :=
  let n := ps.length
  let i := idxMinYX ps
  let hi := ps.getD i (0, 0)
  let nxt := ps.getD ((i + 1) % n) (0, 0)
  let prv := ps.getD ((i + n - 1) % n) (0, 0)
  if leftTurn (fromPoints hi nxt) (fromPoints hi prv) = 1 then false else old

/-- `Polygon.close()`.  Mirrors the source's check order: the closed
flag, then the intersection test on the closing segment (which
dereferences `self._last_vertex`, crashing on an empty polygon), and
only then the `vertex_count < 4` test. -/
def closeP (s : PState) : Option Err × PState :=
  if s.closed then (some .polygonClosed, s)
  else
    match s.verts with
    | [] => (some .attributeError, s)
    | v0 :: _ =>
      match intersectsGo true (posOf s.heap (s.verts.getLastD v0), posOf s.heap v0)
          (edgesOfPts (posList s)) with
      | .error e => (some e, s)
      | .ok true => (some .selfIntersection, s)
      | .ok false =>
        if s.vertexCount < 4 then (some .notEnoughVertexes, s)
        else (none, { s with closed := true,
                             clockwise := closeClockwise (posList s) s.clockwise })

/-- A vertex drag (`vertex.setX/setY` on a boundary vertex obtained
from `iter_vertexes`): updates the position of object `o` in place. -/
def movePos (s : PState) (o : Nat) (p : Pt) : PState :=
  { s with heap := s.heap.map (fun kv => if kv.1 = o then (o, p) else kv) }

/-- `Polygon.peek_cuts()`: the recorded diagonal list (the source
returns a shallow copy of it). -/
def peekCuts (s : PState) : List (Nat × Nat) := s.cuts

/-- A vertex of `triangulate`'s working copy: object id plus position
(the position of a copy vertex is never edited). -/
abbrev WVtx := Nat × Pt

/-- State of the ear-removal loop: the remaining working cycle in
boundary order with the copy's `_first_vertex` at the head, the copy's
`_vertex_count`, the current scan vertex, the copy's winding flag, and
the diagonals recorded so far (pairs of copy vertices). -/
structure WorkState where
  cycle : List WVtx
  count : Nat
  cur : WVtx
  clockwise : Bool
  cuts : List (WVtx × WVtx)
deriving DecidableEq

/-- Index of the current vertex inside the working cycle (by object id). -/
def findIdxOid (c : List WVtx) (o : Nat) : Nat := c.findIdx (fun v => v.1 == o)

/-- The `next`/`previous` neighbours of the current vertex along the
working cycle. -/
def neighbors (w : WorkState) : WVtx × WVtx :=
  let n := w.cycle.length
  let i := findIdxOid w.cycle w.cur.1
  (w.cycle.getD ((i + 1) % n) (0, (0, 0)), w.cycle.getD ((i + n - 1) % n) (0, (0, 0)))

/-- The three signed cross products computed for a remaining vertex `R`
against the candidate ear `(P, V, N)`:
`(V−R) × (N−V)`, `(N−R) × (P−N)`, `(P−R) × (V−P)`. -/
def earCrosses (p v n r : Pt) : List Int :=
  [ crossProduct (fromPoints r v) (fromPoints v n),
    crossProduct (fromPoints r n) (fromPoints n p),
    crossProduct (fromPoints r p) (fromPoints p v) ]

/-- The source's per-vertex break test: some cross product is zero, or
the three strict-positivity booleans form a one-element set (all three
cross products on the same strict side). -/
def blockedBy (p v n r : Pt) : Bool :=
  let cs := earCrosses p v n r
  if (0 : Int) ∈ cs then true
  else
    let c1 := cs.getD 0 0; let c2 := cs.getD 1 0; let c3 := cs.getD 2 0
    if (decide (0 < c1) = decide (0 < c2)) ∧ (decide (0 < c2) = decide (0 < c3))
    then true else false

/-- Scan of the remaining cycle (in `iter_vertexes` order): a vertex
whose coordinates equal those of `P`, `V` or `N` is skipped; otherwise
it blocks the ear exactly when `blockedBy` holds. -/
def earBlockedExists (cycle : List WVtx) (p v n : Pt) : Bool :=
  cycle.any (fun rv =>
    if rv.2 = p ∨ rv.2 = v ∨ rv.2 = n then false else blockedBy p v n rv.2)

/-- The branch an iteration of the ear loop takes. -/
inductive StepKind where
  | notConvex : StepKind
  | blocked : StepKind
  | accepted : StepKind
deriving DecidableEq

/-- The raw `left_turn` at the current vertex, from the vector to its
next neighbour to the vector to its previous neighbour. -/
def rawTurn (w : WorkState) : Int :=
  leftTurn (fromPoints w.cur.2 (neighbors w).1.2) (fromPoints w.cur.2 (neighbors w).2.2)

/-- The loop's convexity predicate after the winding correction
(`predicate *= -1` when the working polygon is not clockwise). -/
def gateValue (w : WorkState) : Int :=
  if !w.clockwise then -(rawTurn w) else rawTurn w

/-- Which branch the loop body takes at the current vertex: the
winding-corrected `left_turn` gate first (`predicate == 1` skips),
then the containment scan. -/
def earStepKind (w : WorkState) : StepKind :=
  if gateValue w = 1 then .notConvex
  else if earBlockedExists w.cycle (neighbors w).2.2 w.cur.2 (neighbors w).1.2 then .blocked
  else .accepted

/-- One iteration of the `while polygon._vertex_count > 3` body. -/
def earStep (w : WorkState) : WorkState :=
  let nb := neighbors w
  match earStepKind w with
  | .notConvex => { w with cur := nb.1 }
  | .blocked => { w with cur := nb.1 }
  | .accepted =>
    let i := findIdxOid w.cycle w.cur.1
    { cycle := w.cycle.eraseIdx i, count := w.count - 1, cur := nb.1,
      clockwise := w.clockwise, cuts := w.cuts ++ [(nb.2, nb.1)] }

/-- The ear loop with fuel: runs `earStep` while the working count
exceeds 3, returning `none` when the fuel is exhausted first. -/
def earLoop : Nat → WorkState → Option WorkState
  | 0, w => if w.count ≤ 3 then some w else none
  | fuel + 1, w => if w.count ≤ 3 then some w else earLoop fuel (earStep w)

/-- The initial loop state built from the closed working copy `c`. -/
def mkWork (c : PState) : WorkState :=
  let cyc := c.verts.map (fun o => (o, posOf c.heap o))
  { cycle := cyc, count := c.vertexCount, cur := cyc.headD (0, (0, 0)),
    clockwise := c.clockwise, cuts := [] }

/-- `Polygon.triangulate()` with fuel for the ear loop.  `none` models
a run that exceeds the fuel (in particular a diverging run); otherwise
the result is the raised failure (if any) and the state after the
call.  The recorded diagonal list is cleared first; the working copy
is rebuilt through `add_vertex`/`close`, whose failures propagate; on
success the copy's surviving vertex objects are committed to the heap
and the diagonals recorded as pairs of their (fresh) object ids. -/
def triangulateF (fuel : Nat) (s : PState) : Option (Option Err × PState) :=
  if s.closed = false then some (some .polygonIsNotClosed, s)
  else
    match (addAll (posList s) (emptyPState s.nextOid)).1 with
    | some e => some (some e, { s with cuts := [] })
    | none =>
      match (closeP (addAll (posList s) (emptyPState s.nextOid)).2).1 with
      | some e => some (some e, { s with cuts := [] })
      | none =>
        match earLoop fuel
            (mkWork (closeP (addAll (posList s) (emptyPState s.nextOid)).2).2) with
        | none => none
        | some w =>
          some (none, { s with
            cuts := w.cuts.map (fun pr => (pr.1.1, pr.2.1)),
            heap := s.heap ++ (closeP (addAll (posList s) (emptyPState s.nextOid)).2).2.heap,
            nextOid := (closeP (addAll (posList s) (emptyPState s.nextOid)).2).2.nextOid })

/-- The square of spec Scenario A, as a point list. -/
def sqPts : List Pt := [(0, 0), (10, 0), (10, 10), (0, 10)]

/-- The square built through `add_vertex` and `close`. -/
def sqClosed : PState := (closeP (addAll sqPts (emptyPState 0)).2).2

/-- A 12-vertex "plus"-shaped simple polygon: an axis-aligned plus
sign whose four side lines each carry further polygon vertices. -/
def plusPts : List Pt :=
  [(1, 0), (2, 0), (2, 1), (3, 1), (3, 2), (2, 2),
   (2, 3), (1, 3), (1, 2), (0, 2), (0, 1), (1, 1)]

/-- The plus polygon built through `add_vertex` and `close`. -/
def plusState : PState := (closeP (addAll plusPts (emptyPState 0)).2).2

/-- The working copy `triangulate` builds for the plus polygon. -/
def plusCopy : PState :=
  (closeP (addAll (posList plusState) (emptyPState plusState.nextOid)).2).2

/-- The initial ear-loop state for the plus polygon. -/
def w0plus : WorkState := mkWork plusCopy

/-- The working copy `triangulate` builds for the square. -/
def sqCopy : PState :=
  (closeP (addAll (posList sqClosed) (emptyPState sqClosed.nextOid)).2).2

/-- The initial ear-loop state for the square. -/
def w0sq : WorkState := mkWork sqCopy

/-- The square after one successful `triangulate` call. -/
def sqTriState : PState := ((triangulateF 9 sqClosed).getD (none, sqClosed)).2

/-- The triangulated square after its vertex of id 1 — originally
`(10, 0)` — is dragged to `(5, 15)`, making edges cross. -/
def sqTriEdited : PState := movePos sqTriState 1 (5, 15)

/-- The (untriangulated) closed square after the same drag. -/
def editedSq : PState := movePos sqClosed 1 (5, 15)

/-- A working cycle for a dart-shaped quadrilateral whose current
vertex `(4, 1)` is reflex. -/
def wDart : WorkState :=
  { cycle := [(0, (0, 0)), (1, (4, 1)), (2, (8, 0)), (3, (4, 6))],
    count := 4, cur := (1, (4, 1)), clockwise := false, cuts := [] }

/-- The ear loop never terminates from `w`, however much fuel it gets. -/
def EarLoopStuck (w : WorkState) : Prop := ∀ fuel, earLoop fuel w = none

/-- `triangulate()` never returns on `s`, however much fuel it gets. -/
def TriangulateDiverges (s : PState) : Prop := ∀ fuel, triangulateF fuel s = none

/-- The claim's winding-corrected turn at the current scan vertex:
`left_turn` of the vectors to the next and to the previous neighbour,
negated when the working polygon winds clockwise. -/
def turnSpec (w : WorkState) : Int :=
  if w.clockwise then -(rawTurn w) else rawTurn w

/-- A single-point intersection of the candidate with an edge whose
truncated coordinates coincide with neither endpoint of that edge:
the condition under which the source reports a crossing. -/
def PointBlocks (line e : Seg) : Prop :=
  ∃ q, segInter line e = .point q ∧ truncPt q ≠ e.1 ∧ truncPt q ≠ e.2

/-- The amended blocking condition at a remaining vertex `R` of the
candidate ear `(P, V, N)`: one of the three cross products vanishes
(`R` lies on a line through two of the ear's corners), or all three
share the same strict sign (`R` strictly inside the ear triangle). -/
def EarBlockSpec (p v n r : Pt) : Prop :=
  crossProduct (fromPoints r v) (fromPoints v n) = 0 ∨
  crossProduct (fromPoints r n) (fromPoints n p) = 0 ∨
  crossProduct (fromPoints r p) (fromPoints p v) = 0 ∨
  (0 < crossProduct (fromPoints r v) (fromPoints v n) ∧
   0 < crossProduct (fromPoints r n) (fromPoints n p) ∧
   0 < crossProduct (fromPoints r p) (fromPoints p v)) ∨
  (crossProduct (fromPoints r v) (fromPoints v n) < 0 ∧
   crossProduct (fromPoints r n) (fromPoints n p) < 0 ∧
   crossProduct (fromPoints r p) (fromPoints p v) < 0)

/-- The full content of the (amended) ear-scan claim at one loop
state: acceptance of the candidate ear holds exactly when every
remaining vertex whose coordinates differ from all of `P`, `V`, `N`
yields no zero cross product and no uniformly-signed triple; and on
acceptance the vertex is removed and the diagonal `(P, N)` appended. -/
def EarScanSpec (w : WorkState) : Prop :=
  (earStepKind w = .accepted ↔
    ∀ rv ∈ w.cycle,
      (rv.2 ≠ (neighbors w).2.2 ∧ rv.2 ≠ w.cur.2 ∧ rv.2 ≠ (neighbors w).1.2) →
        ¬ EarBlockSpec (neighbors w).2.2 w.cur.2 (neighbors w).1.2 rv.2) ∧
  (earStepKind w = .accepted →
    earStep w = { cycle := w.cycle.eraseIdx (findIdxOid w.cycle w.cur.1),
                  count := w.count - 1, cur := (neighbors w).1,
                  clockwise := w.clockwise,
                  cuts := w.cuts ++ [((neighbors w).2, (neighbors w).1)] })

/-- The state reached from `s` by successfully adding every point of
`ps`: fresh consecutive object ids, appended verts and heap entries. -/
def addedState (s : PState) (ps : List Pt) : PState :=
  { verts := s.verts ++ List.range' s.nextOid ps.length,
    heap := s.heap ++ (List.range' s.nextOid ps.length).zip ps,
    nextOid := s.nextOid + ps.length,
    vertexCount := s.vertexCount + ps.length,
    closed := s.closed, clockwise := s.clockwise, cuts := s.cuts }

/-- The working-cycle invariant of the ear loop, relative to the
initial cycle `init`: the copy's counter tracks the cycle length, the
current vertex is present, and the cycle and every recorded diagonal
endpoint stay within the initial cycle's vertices. -/
def WInv (init : List WVtx) (w : WorkState) : Prop :=
  w.count = w.cycle.length ∧
  findIdxOid w.cycle w.cur.1 < w.cycle.length ∧
  (∀ v ∈ w.cycle, v ∈ init) ∧
  (∀ pr ∈ w.cuts, pr.1 ∈ init ∧ pr.2 ∈ init)

/-- The frame conditions of C10: every recorded diagonal endpoint has
the coordinates of some boundary vertex at return time; the endpoints
are fresh objects, not the boundary's vertex objects; and moving any
boundary vertex afterwards leaves every recorded endpoint's
coordinates unchanged. -/
def CutsFresh (s s₂ : PState) : Prop :=
  (∀ pr ∈ s₂.cuts, posOf s₂.heap pr.1 ∈ posList s ∧ posOf s₂.heap pr.2 ∈ posList s) ∧
  (∀ pr ∈ s₂.cuts, pr.1 ∉ s.verts ∧ pr.2 ∉ s.verts) ∧
  (∀ pr ∈ s₂.cuts, ∀ o ∈ s.verts, ∀ p : Pt,
     posOf (movePos s₂ o p).heap pr.1 = posOf s₂.heap pr.1 ∧
     posOf (movePos s₂ o p).heap pr.2 = posOf s₂.heap pr.2)

theorem earLoop_none_of_cycle (w : WorkState) (m : Nat) (hm : 0 < m)
    (hper : earStep^[m] w = w)
    (hbig : ∀ j, j < m → 3 < (earStep^[j] w).count) :
    ∀ fuel j, j < m → earLoop fuel (earStep^[j] w) = none := by
  intro fuel
  induction fuel with
  | zero =>
    intro j hj
    have h3 := hbig j hj
    simp only [earLoop, if_neg (by omega : ¬ (earStep^[j] w).count ≤ 3)]
  | succ k ih =>
    intro j hj
    have h3 := hbig j hj
    simp only [earLoop, if_neg (by omega : ¬ (earStep^[j] w).count ≤ 3)]
    have hstep : earStep (earStep^[j] w) = earStep^[j + 1] w :=
      (Function.iterate_succ_apply' earStep j w).symm
    rw [hstep]
    by_cases hj1 : j + 1 < m
    · exact ih (j + 1) hj1
    · have hjm : j + 1 = m := by omega
      rw [hjm, hper]
      simpa using ih 0 hm

theorem plus_loop_stuck : EarLoopStuck w0plus := by
  intro fuel
  have h := earLoop_none_of_cycle w0plus 12 (by omega) (by decide)
    (by decide) fuel 0 (by omega)
  simpa using h

theorem triangulateF_none_of_loop_none (fuel : Nat) (s : PState)
    (hc : s.closed = true)
    (hadd : (addAll (posList s) (emptyPState s.nextOid)).1 = none)
    (hclose : (closeP (addAll (posList s) (emptyPState s.nextOid)).2).1 = none)
    (hloop : earLoop fuel
      (mkWork (closeP (addAll (posList s) (emptyPState s.nextOid)).2).2) = none) :
    triangulateF fuel s = none := by
  unfold triangulateF
  rw [if_neg (by simp [hc]), hadd, hclose, hloop]

/-- C5: the spec claims every operation is bounded by the polygon's
vertex count, but on the 12-vertex simple plus polygon — built and
closed successfully by the builder, with positions as entered — the
ear-removal loop of `triangulate()` accepts no ear: a full scan pass
reproduces the loop state exactly, so the `while` loop never
terminates, however long it runs. -/
theorem C5_plus_loop_diverges :
    plusState.closed = true ∧ plusState.vertexCount = 12 ∧
    3 < w0plus.count ∧ EarLoopStuck w0plus :=
  ⟨by decide, by decide, by decide, plus_loop_stuck⟩

/-- C1, counterexample: the plus polygon is a simple polygon with
`n = 12 ≥ 4` vertices accepted by `add_vertex`/`close` with no
failure, yet `triangulate()` does not succeed on it — it never
returns at all, for any amount of fuel — so it does not record
`n − 3` diagonals. -/
theorem C1_plus_never_triangulates :
    (addAll plusPts (emptyPState 0)).1 = none ∧
    (closeP (addAll plusPts (emptyPState 0)).2).1 = none ∧
    plusState.closed = true ∧
    plusState.vertexCount = 12 ∧
    TriangulateDiverges plusState := by
  refine ⟨by decide, by decide, by decide, by decide, fun fuel => ?_⟩
  exact triangulateF_none_of_loop_none fuel plusState (by decide) (by decide)
    (by decide) (plus_loop_stuck fuel)

/-- C8: `close()` on an empty boundary does not fail with
`NotEnoughVertices`: the source dereferences `self._last_vertex`
(which is `None`) to build the closing segment before ever checking
`vertex_count < 4`, so it crashes with an `AttributeError`; on a
2-vertex boundary the closing segment is the reverse of the only
edge, the shapely intersection is a `LineString`, and reading its
`.x` crashes the same way. -/
theorem C8_close_empty_crashes :
    closeP (emptyPState 0) = (some .attributeError, emptyPState 0) ∧
    (closeP (addAll ([(0, 0), (5, 0)] : List Pt) (emptyPState 0)).2).1 =
      some .attributeError ∧
    (closeP (addAll ([(0, 0), (5, 0)] : List Pt) (emptyPState 0)).2).2.closed = false ∧
    Err.attributeError ≠ Err.notEnoughVertexes := by decide

/-- C7, counterexample: on the closed square, the candidate segment
`(−5, 5)–(5, 5)` crosses the interior of the closing edge
`(0, 10)–(0, 0)` at `(0, 5)` — an interior point, not a polygon
vertex — yet `intersects` returns `false`, because the edge list it
builds stops at consecutive vertex pairs and never includes the
closing edge. -/
theorem C7_closing_edge_untested :
    sqClosed.closed = true ∧
    posList sqClosed = [(0, 0), (10, 0), (10, 10), (0, 10)] ∧
    segInter ((-5, 5), (5, 5)) ((0, 10), (0, 0)) = .point (0, -500, -100) ∧
    truncPt (0, -500, -100) = (0, 5) ∧
    onSeg (0, 5) (0, 10) (0, 0) = true ∧
    ((0 : Int), (5 : Int)) ≠ ((0 : Int), (10 : Int)) ∧
    ((0 : Int), (5 : Int)) ≠ ((0 : Int), (0 : Int)) ∧
    intersectsM sqClosed ((-5, 5), (5, 5)) = .ok false := by decide

/-- C3, counterexample: a square whose `closed` flag is set and whose
vertex of id 1 was then dragged from `(10, 0)` to `(5, 15)` makes
`triangulate()` raise `SelfIntersection` (the working-copy rebuild
re-runs the `add_vertex` intersection checks on the edited
positions), so `PolygonNotClosed` is not the only failure of
`triangulate()` and a set closed flag does not guarantee success. -/
theorem C3_closed_edited_raises :
    editedSq.closed = true ∧
    triangulateF 9 editedSq = some (some .selfIntersection, editedSq) := by decide

/-- C4, counterexample: on a triangulated square whose vertex of id 1
was dragged to `(5, 15)`, the next `triangulate()` call raises
`SelfIntersection` but leaves the recorded diagonal list cleared —
the observable state after the failing call differs from the state
before it, so `triangulate` is not atomic. -/
theorem C4_triangulate_clears_cuts_on_failure :
    sqTriEdited.cuts = [(7, 5)] ∧
    triangulateF 9 sqTriEdited =
      some (some .selfIntersection, { sqTriEdited with cuts := [] }) ∧
    ({ sqTriEdited with cuts := ([] : List (Nat × Nat)) }).cuts ≠ sqTriEdited.cuts := by
  decide

/-- C2, counterexample: in the first ear-scan step on the square's
working cycle (candidate ear `P = (0, 10)`, `V = (0, 0)`,
`N = (10, 0)`), the only other remaining vertex `R = (10, 10)` yields
the cross products `[100, −100, 100]` — no zero and mixed signs — so
by the claim the ear should be rejected; the code accepts it and
records the diagonal `(P, N)`: the source breaks (rejects) on a zero
or on three cross products of the same strict sign, not on mixed
signs. -/
theorem C2_square_mixed_signs_accepted :
    (neighbors w0sq).2.2 = (0, 10) ∧ w0sq.cur.2 = (0, 0) ∧
    (neighbors w0sq).1.2 = (10, 0) ∧
    ((10, 10) : Pt) ∈ w0sq.cycle.map (fun v => v.2) ∧
    earCrosses (0, 10) (0, 0) (10, 0) (10, 10) = [100, -100, 100] ∧
    ¬ (0 : Int) ∈ earCrosses (0, 10) (0, 0) (10, 0) (10, 10) ∧
    earStepKind w0sq = .accepted ∧
    (earStep w0sq).cuts = [((7, (0, 10)), (5, (10, 0)))] := by decide

theorem earStepKind_notConvex_iff (w : WorkState) :
    earStepKind w = .notConvex ↔ gateValue w = 1 := by
  unfold earStepKind
  by_cases hC : gateValue w = 1
  · simp [hC]
  · simp only [if_neg hC, iff_false_intro hC, iff_false]
    cases hblk : earBlockedExists w.cycle (neighbors w).2.2 w.cur.2 (neighbors w).1.2 <;>
      simp [hblk]

/-- C6: the loop body computes the turn at the current vertex with
`left_turn` and corrects it for the working polygon's winding (the
corrected value `turnSpec` negates the raw sign exactly when
`clockwise` holds); the branch that skips the vertex is taken exactly
when the corrected turn is `−1` (a reflex corner, not convex), and in
that branch the loop advances to the next neighbour with the cycle,
count and recorded diagonals untouched and no containment scan
performed. -/
theorem C6_turn_gate (w : WorkState) :
    (earStepKind w = .notConvex ↔ turnSpec w = -1) ∧
    (earStepKind w = .notConvex → earStep w = { w with cur := (neighbors w).1 }) := by
  constructor
  · rw [earStepKind_notConvex_iff]
    unfold turnSpec gateValue
    cases hcw : w.clockwise <;> simp [hcw] <;> omega
  · intro hk
    unfold earStep
    rw [hk]

/-- C6, witness: on the dart-shaped working cycle `wDart`, the current
vertex `(4, 1)` is reflex, and the step only advances the scan. -/
theorem C6_witness_dart :
    earStep wDart = { wDart with cur := (neighbors wDart).1 } :=
  (C6_turn_gate wDart).2 (by decide)

theorem intersectsGo_error_eq (nv : Bool) (line : Seg) :
    ∀ (es : List Seg) (e : Err), intersectsGo nv line es = .error e →
      e = .attributeError := by
  intro es
  induction es with
  | nil => intro e h; exact Except.noConfusion h
  | cons hd tl ih =>
    intro e h
    unfold intersectsGo at h
    split at h
    · exact ih e h
    · split at h
      · exact (Except.error.inj h).symm
      · exact Except.noConfusion h
    · split at h
      · split at h
        · exact ih e h
        · exact Except.noConfusion h
      · exact Except.noConfusion h

theorem addVertex_fail (s : PState) (p : Pt) (e : Err) (s₂ : PState)
    (h : addVertex s p = (some e, s₂)) :
    s₂ = s ∧ (e = .polygonClosed ∨ e = .selfIntersection ∨ e = .attributeError) := by
  unfold addVertex at h
  split at h
  · simp only [Prod.mk.injEq, Option.some.injEq] at h
    exact ⟨h.2.symm, .inl h.1.symm⟩
  · split at h
    · simp at h
    · split at h
      · next e0 heq =>
        simp only [Prod.mk.injEq, Option.some.injEq] at h
        exact ⟨h.2.symm, .inr (.inr (h.1 ▸ intersectsGo_error_eq true _ _ e0 heq))⟩
      · simp only [Prod.mk.injEq, Option.some.injEq] at h
        exact ⟨h.2.symm, .inr (.inl h.1.symm)⟩
      · simp at h

theorem addVertex_ok (s : PState) (p : Pt) (s₂ : PState)
    (h : addVertex s p = (none, s₂)) : s₂ = appendV s p ∧ s.closed = false := by
  unfold addVertex at h
  split at h
  · simp at h
  · next hcl =>
    have hc : s.closed = false := by
      cases hcc : s.closed
      · rfl
      · exact absurd hcc hcl
    split at h
    · simp only [Prod.mk.injEq] at h
      exact ⟨h.2.symm, hc⟩
    · split at h
      · simp at h
      · simp at h
      · simp only [Prod.mk.injEq] at h
        exact ⟨h.2.symm, hc⟩

theorem closeP_fail (s : PState) (e : Err) (s₂ : PState)
    (h : closeP s = (some e, s₂)) : s₂ = s ∧ e ≠ .polygonIsNotClosed := by
  unfold closeP at h
  split at h
  · simp only [Prod.mk.injEq, Option.some.injEq] at h
    exact ⟨h.2.symm, by rw [← h.1]; simp⟩
  · split at h
    · simp only [Prod.mk.injEq, Option.some.injEq] at h
      exact ⟨h.2.symm, by rw [← h.1]; simp⟩
    · split at h
      · rename_i e0 heq
        simp only [Prod.mk.injEq, Option.some.injEq] at h
        have he : e0 = Err.attributeError := intersectsGo_error_eq true _ _ e0 heq
        refine ⟨h.2.symm, ?_⟩
        rw [← h.1, he]
        simp
      · simp only [Prod.mk.injEq, Option.some.injEq] at h
        exact ⟨h.2.symm, by rw [← h.1]; simp⟩
      · split at h
        · simp only [Prod.mk.injEq, Option.some.injEq] at h
          exact ⟨h.2.symm, by rw [← h.1]; simp⟩
        · simp at h

theorem closeP_ok (s : PState) (s₂ : PState) (h : closeP s = (none, s₂)) :
    s₂ = { s with closed := true,
                  clockwise := closeClockwise (posList s) s.clockwise } ∧
    s.closed = false ∧ 4 ≤ s.vertexCount := by
  unfold closeP at h
  split at h
  · simp at h
  · next hcl =>
    have hc : s.closed = false := by
      cases hcc : s.closed
      · rfl
      · exact absurd hcc hcl
    split at h
    · simp at h
    · split at h
      all_goals try split at h
      all_goals
        first
          | (simp only [Prod.mk.injEq] at h
             exact ⟨h.2.symm, hc, by omega⟩)
          | (simp at h)

/-- C4 (amended): `add_vertex` and `close` are atomic — every failure
returns the state unchanged — and a failing `triangulate` leaves the
vertex sequence, positions, vertex count and both flags unchanged,
but may have already cleared the recorded diagonal list (it clears it
before rebuilding the working copy, whose checks can still fail). -/
theorem C4_atomicity :
    (∀ s p e s₂, addVertex s p = (some e, s₂) → s₂ = s) ∧
    (∀ s e s₂, closeP s = (some e, s₂) → s₂ = s) ∧
    (∀ s fuel e s₂, triangulateF fuel s = some (some e, s₂) →
      s₂.verts = s.verts ∧ s₂.heap = s.heap ∧ s₂.vertexCount = s.vertexCount ∧
      s₂.closed = s.closed ∧ s₂.clockwise = s.clockwise ∧
      (s₂.cuts = s.cuts ∨ s₂.cuts = [])) := by
  refine ⟨fun s p e s₂ h => (addVertex_fail s p e s₂ h).1,
          fun s e s₂ h => (closeP_fail s e s₂ h).1,
          fun s fuel e s₂ h => ?_⟩
  unfold triangulateF at h
  split at h
  · simp only [Option.some.injEq, Prod.mk.injEq] at h
    rw [← h.2]
    exact ⟨rfl, rfl, rfl, rfl, rfl, .inl rfl⟩
  · split at h
    · simp only [Option.some.injEq, Prod.mk.injEq] at h
      rw [← h.2]
      exact ⟨rfl, rfl, rfl, rfl, rfl, .inr rfl⟩
    · split at h
      · simp only [Option.some.injEq, Prod.mk.injEq] at h
        rw [← h.2]
        exact ⟨rfl, rfl, rfl, rfl, rfl, .inr rfl⟩
      · split at h
        · exact Option.noConfusion h
        · simp only [Option.some.injEq, Prod.mk.injEq] at h
          exact absurd h.1 (by simp)

/-- C4, witness: a failing `add_vertex` on the closed square returns
the square unchanged. -/
theorem C4_witness :
    (addVertex sqClosed (3, 3)).2 = sqClosed ∧
    (closeP sqClosed).2 = sqClosed :=
  ⟨C4_atomicity.1 sqClosed (3, 3) .polygonClosed (addVertex sqClosed (3, 3)).2 (by decide),
   C4_atomicity.2.1 sqClosed .polygonClosed (closeP sqClosed).2 (by decide)⟩

theorem addAll_fail (ps : List Pt) : ∀ (s : PState) (e : Err) (s₂ : PState),
    addAll ps s = (some e, s₂) →
    (e = .polygonClosed ∨ e = .selfIntersection ∨ e = .attributeError) := by
  induction ps with
  | nil => intro s e s₂ h; simp [addAll] at h
  | cons p rest ih =>
    intro s e s₂ h
    unfold addAll at h
    split at h
    · next e0 s0 heq =>
      simp only [Prod.mk.injEq, Option.some.injEq] at h
      exact h.1 ▸ (addVertex_fail s p e0 s0 heq).2
    · next s0 heq => exact ih s0 e s₂ h

/-- C3 (amended): `triangulate()` fails with `PolygonNotClosed`
exactly when the boundary is not closed; on a closed boundary it
never raises `PolygonNotClosed`, but it can still fail (with
`SelfIntersection`, or the shapely `AttributeError` crash) when the
vertex positions were edited after closing, because the working-copy
rebuild re-runs the `add_vertex`/`close` validation. -/
theorem C3_notclosed_iff (s : PState) (fuel : Nat) (r : Option Err × PState)
    (h : triangulateF fuel s = some r) :
    r.1 = some .polygonIsNotClosed ↔ s.closed = false := by
  unfold triangulateF at h
  split at h
  · next hcl =>
    cases Option.some.inj h
    exact ⟨fun _ => hcl, fun _ => rfl⟩
  · next hcl =>
    have hcc : ¬ s.closed = false := hcl
    refine ⟨fun h1 => ?_, fun h2 => absurd h2 hcc⟩
    exfalso
    split at h
    · next e0 heq =>
      cases Option.some.inj h
      simp only [Option.some.injEq] at h1
      have hfull := (Prod.mk.eta
        (p := addAll (posList s) (emptyPState s.nextOid))).symm
      rw [heq] at hfull
      rcases addAll_fail _ _ _ _ hfull with h3 | h3 | h3 <;>
        rw [h1] at h3 <;> exact Err.noConfusion h3
    · split at h
      · next e0 heq =>
        cases Option.some.inj h
        simp only [Option.some.injEq] at h1
        have hfull := (Prod.mk.eta
          (p := closeP (addAll (posList s) (emptyPState s.nextOid)).2)).symm
        rw [heq] at hfull
        exact (closeP_fail _ _ _ hfull).2 (h1 ▸ rfl)
      · split at h
        · exact Option.noConfusion h
        · cases Option.some.inj h
          simp at h1

/-- C3, witness: a successful `triangulate` on the closed square
raises nothing, consistent with the failure characterization. -/
theorem C3_witness_square :
    ((triangulateF 9 sqClosed).getD (none, sqClosed)).1 = some Err.polygonIsNotClosed ↔
      sqClosed.closed = false :=
  C3_notclosed_iff sqClosed 9 ((triangulateF 9 sqClosed).getD (none, sqClosed)) (by rfl)

theorem intersectsGo_cons_empty (line hd : Seg) (tl : List Seg)
    (hsi : segInter line hd = .empty) :
    intersectsGo true line (hd :: tl) = intersectsGo true line tl := by
  simp only [intersectsGo, hsi]

theorem intersectsGo_cons_point (line hd : Seg) (tl : List Seg) (q : FPt)
    (hsi : segInter line hd = .point q) :
    intersectsGo true line (hd :: tl) =
      if truncPt q = hd.1 ∨ truncPt q = hd.2 then intersectsGo true line tl
      else .ok true := by
  simp only [intersectsGo, hsi]
  rfl

theorem intersectsGo_true_iff (line : Seg) :
    ∀ es : List Seg, (∀ e ∈ es, segInter line e ≠ .overlap) →
      ((intersectsGo true line es = .ok true ↔ ∃ e ∈ es, PointBlocks line e) ∧
       (intersectsGo true line es = .ok true ∨ intersectsGo true line es = .ok false)) := by
  intro es
  induction es with
  | nil =>
    intro _
    refine ⟨?_, .inr rfl⟩
    constructor
    · intro h; exact absurd h (by simp [intersectsGo])
    · rintro ⟨e, he, _⟩; simp at he
  | cons hd tl ih =>
    intro hov
    have hovtl : ∀ e ∈ tl, segInter line e ≠ .overlap :=
      fun e he => hov e (List.mem_cons_of_mem _ he)
    obtain ⟨ih1, ih2⟩ := ih hovtl
    cases hsi : segInter line hd with
    | empty =>
      rw [intersectsGo_cons_empty line hd tl hsi]
      refine ⟨?_, ih2⟩
      rw [ih1]
      constructor
      · rintro ⟨e, he, hp⟩; exact ⟨e, List.mem_cons_of_mem _ he, hp⟩
      · rintro ⟨e, he, hp⟩
        rcases List.mem_cons.mp he with heq | he2
        · exfalso
          subst heq
          rcases hp with ⟨q, hq, _⟩
          rw [hsi] at hq
          exact SegInter.noConfusion hq
        · exact ⟨e, he2, hp⟩
    | point q =>
      rw [intersectsGo_cons_point line hd tl q hsi]
      by_cases htr : truncPt q = hd.1 ∨ truncPt q = hd.2
      · rw [if_pos htr]
        refine ⟨?_, ih2⟩
        rw [ih1]
        constructor
        · rintro ⟨e, he, hp⟩; exact ⟨e, List.mem_cons_of_mem _ he, hp⟩
        · rintro ⟨e, he, hp⟩
          rcases List.mem_cons.mp he with heq | he2
          · exfalso
            subst heq
            rcases hp with ⟨q2, hq2, hn1, hn2⟩
            rw [hsi] at hq2
            cases SegInter.point.inj hq2
            rcases htr with h1 | h1
            · exact hn1 h1
            · exact hn2 h1
          · exact ⟨e, he2, hp⟩
      · rw [if_neg htr]
        push_neg at htr
        refine ⟨?_, .inl rfl⟩
        constructor
        · intro _
          exact ⟨hd, List.mem_cons_self hd tl, q, hsi, htr.1, htr.2⟩
        · intro _; rfl
    | overlap => exact absurd hsi (hov hd (List.mem_cons_self hd tl))

/-- C7 (amended): `intersects` (vertex exclusion on, the default)
tests the candidate against the edges between consecutive vertices in
insertion order — the closing edge is never among them, even on a
closed polygon.  Provided no tested edge overlaps the candidate
collinearly (which would crash), the call returns a boolean, and it
returns `true` exactly when some tested edge meets the candidate in a
single point whose integer-truncated coordinates coincide with
neither endpoint of that edge; an intersection coincident (after
truncation) with an edge endpoint is ignored. -/
theorem C7_intersects_spec (s : PState) (line : Seg)
    (hov : ∀ e ∈ edgesOfPts (posList s), segInter line e ≠ .overlap) :
    (intersectsM s line = .ok true ↔
      ∃ e ∈ edgesOfPts (posList s), PointBlocks line e) ∧
    (intersectsM s line = .ok true ∨ intersectsM s line = .ok false) :=
  intersectsGo_true_iff line (edgesOfPts (posList s)) hov

/-- C7, witness: on the closed square, a segment crossing the bottom
edge's interior is reported, and the call returns a boolean. -/
theorem C7_witness_square :
    (intersectsM sqClosed ((5, -5), (5, 5)) = .ok true ↔
      ∃ e ∈ edgesOfPts (posList sqClosed), PointBlocks ((5, -5), (5, 5)) e) ∧
    (intersectsM sqClosed ((5, -5), (5, 5)) = .ok true ∨
     intersectsM sqClosed ((5, -5), (5, 5)) = .ok false) :=
  C7_intersects_spec sqClosed ((5, -5), (5, 5)) (by decide)

theorem blocked_aux (c1 c2 c3 : Int) :
    (if (0 : Int) ∈ [c1, c2, c3] then true
     else if (decide (0 < c1) = decide (0 < c2)) ∧ (decide (0 < c2) = decide (0 < c3))
          then true else false) = true ↔
    (c1 = 0 ∨ c2 = 0 ∨ c3 = 0 ∨
     (0 < c1 ∧ 0 < c2 ∧ 0 < c3) ∨ (c1 < 0 ∧ c2 < 0 ∧ c3 < 0)) := by
  constructor
  · intro hb
    by_cases h0 : (0 : Int) ∈ [c1, c2, c3]
    · simp at h0
      omega
    · rw [if_neg h0] at hb
      by_cases hB : (decide (0 < c1) = decide (0 < c2)) ∧
          (decide (0 < c2) = decide (0 < c3))
      · rw [decide_eq_decide, decide_eq_decide] at hB
        simp at h0
        omega
      · rw [if_neg hB] at hb
        exact Bool.noConfusion hb
  · intro hs
    by_cases h0 : (0 : Int) ∈ [c1, c2, c3]
    · rw [if_pos h0]
    · rw [if_neg h0]
      simp at h0
      have hB : (decide (0 < c1) = decide (0 < c2)) ∧
          (decide (0 < c2) = decide (0 < c3)) := by
        rw [decide_eq_decide, decide_eq_decide]
        omega
      rw [if_pos hB]

theorem blockedBy_iff (p v n r : Pt) :
    blockedBy p v n r = true ↔ EarBlockSpec p v n r :=
  blocked_aux (crossProduct (fromPoints r v) (fromPoints v n))
    (crossProduct (fromPoints r n) (fromPoints n p))
    (crossProduct (fromPoints r p) (fromPoints p v))

theorem earBlockedExists_false_iff (cycle : List WVtx) (p v n : Pt) :
    earBlockedExists cycle p v n = false ↔
      ∀ rv ∈ cycle, (rv.2 ≠ p ∧ rv.2 ≠ v ∧ rv.2 ≠ n) →
        ¬ EarBlockSpec p v n rv.2 := by
  unfold earBlockedExists
  rw [List.any_eq_false]
  constructor
  · intro hall rv hmem hne
    have hh := hall rv hmem
    rw [if_neg (by simp only [not_or]; exact ⟨hne.1, hne.2.1, hne.2.2⟩)] at hh
    rw [blockedBy_iff] at hh
    exact hh
  · intro hall rv hmem
    by_cases hc : rv.2 = p ∨ rv.2 = v ∨ rv.2 = n
    · rw [if_pos hc]
      simp
    · rw [if_neg hc]
      push_neg at hc
      have hh := hall rv hmem ⟨hc.1, hc.2.1, hc.2.2⟩
      rw [blockedBy_iff]
      exact hh

/-- C2 (amended): for a convex candidate ear at `V` with neighbours
`P` and `N`, the scan rejects the ear exactly when some other
remaining vertex `R` gives, among the three signed cross products
(`R→V` vs `V→N`, `R→N` vs `N→P`, `R→P` vs `P→V`), either a zero cross
product or three values of the same strict sign (`R` strictly inside
the triangle); if every other remaining vertex yields nonzero, mixed
signs, the ear is accepted and the diagonal `(P, N)` is recorded. -/
theorem C2_ear_acceptance (w : WorkState) (hconv : earStepKind w ≠ .notConvex) :
    EarScanSpec w := by
  have hg : gateValue w ≠ 1 := fun hg1 => hconv ((earStepKind_notConvex_iff w).mpr hg1)
  constructor
  · rw [← earBlockedExists_false_iff]
    unfold earStepKind
    rw [if_neg hg]
    cases hblk : earBlockedExists w.cycle (neighbors w).2.2 w.cur.2 (neighbors w).1.2 <;>
      simp [hblk]
  · intro hk
    unfold earStep
    rw [hk]

/-- C2, witness: the acceptance characterization instantiated at the
square's first ear-scan state. -/
theorem C2_witness_square : EarScanSpec w0sq :=
  C2_ear_acceptance w0sq (by decide)

theorem addedState_nil (s : PState) : addedState s [] = s := by
  simp [addedState]

theorem addAll_ok (ps : List Pt) : ∀ (s s₂ : PState),
    addAll ps s = (none, s₂) → s₂ = addedState s ps := by
  induction ps with
  | nil =>
    intro s s₂ h
    simp only [addAll, Prod.mk.injEq] at h
    rw [← h.2, addedState_nil]
  | cons p rest ih =>
    intro s s₂ h
    unfold addAll at h
    split at h
    · simp at h
    · next s0 heq =>
      have h1 := addVertex_ok s p s0 heq
      have h2 := ih s0 s₂ h
      rw [h2, h1.1]
      unfold addedState appendV
      simp only [PState.mk.injEq, List.length_cons]
      refine ⟨?_, ?_, by omega, by omega, trivial, trivial, trivial⟩
      · rw [List.range'_succ, List.append_assoc]
        rfl
      · rw [List.range'_succ, List.zip_cons_cons, List.append_assoc]
        rfl

theorem triangulateF_fail_shape (fuel : Nat) (s : PState) (e : Err) (s₂ : PState)
    (h : triangulateF fuel s = some (some e, s₂)) :
    s₂ = s ∨ s₂ = { s with cuts := [] } := by
  unfold triangulateF at h
  split at h
  · simp only [Option.some.injEq, Prod.mk.injEq] at h
    exact .inl h.2.symm
  · split at h
    · simp only [Option.some.injEq, Prod.mk.injEq] at h
      exact .inr h.2.symm
    · split at h
      · simp only [Option.some.injEq, Prod.mk.injEq] at h
        exact .inr h.2.symm
      · split at h
        · exact Option.noConfusion h
        · simp only [Option.some.injEq, Prod.mk.injEq] at h
          exact absurd h.1 (by simp)

theorem triangulateF_ok_split (fuel : Nat) (s s₂ : PState)
    (h : triangulateF fuel s = some (none, s₂)) :
    s.closed = true ∧
    (addAll (posList s) (emptyPState s.nextOid)).1 = none ∧
    (closeP (addAll (posList s) (emptyPState s.nextOid)).2).1 = none ∧
    ∃ w, earLoop fuel
        (mkWork (closeP (addAll (posList s) (emptyPState s.nextOid)).2).2) = some w ∧
      s₂ = { s with
        cuts := w.cuts.map (fun pr => (pr.1.1, pr.2.1)),
        heap := s.heap ++ (closeP (addAll (posList s) (emptyPState s.nextOid)).2).2.heap,
        nextOid := (closeP (addAll (posList s) (emptyPState s.nextOid)).2).2.nextOid } := by
  unfold triangulateF at h
  split at h
  · simp at h
  · next hcl =>
    have hc : s.closed = true := by
      cases hcc : s.closed
      · exact absurd hcc hcl
      · rfl
    refine ⟨hc, ?_⟩
    split at h
    · simp at h
    · next heqadd =>
      refine ⟨heqadd, ?_⟩
      split at h
      · simp at h
      · next heqclose =>
        refine ⟨heqclose, ?_⟩
        split at h
        · exact Option.noConfusion h
        · next w heqloop =>
          refine ⟨w, heqloop, ?_⟩
          simp only [Option.some.injEq, Prod.mk.injEq] at h
          exact h.2.symm

theorem earStep_shape (w : WorkState) :
    earStep w = { w with cur := (neighbors w).1 } ∨
    earStep w = { cycle := w.cycle.eraseIdx (findIdxOid w.cycle w.cur.1),
                  count := w.count - 1, cur := (neighbors w).1,
                  clockwise := w.clockwise,
                  cuts := w.cuts ++ [((neighbors w).2, (neighbors w).1)] } := by
  unfold earStep
  cases earStepKind w
  · exact .inl rfl
  · exact .inl rfl
  · exact .inr rfl

theorem earStep_count_cuts (w : WorkState) :
    ((earStep w).count = w.count ∧ (earStep w).cuts = w.cuts) ∨
    ((earStep w).count = w.count - 1 ∧
     (earStep w).cuts = w.cuts ++ [((neighbors w).2, (neighbors w).1)]) := by
  rcases earStep_shape w with h | h <;> rw [h]
  · exact .inl ⟨rfl, rfl⟩
  · exact .inr ⟨rfl, rfl⟩

theorem earLoop_spec (fuel : Nat) : ∀ w w₂ : WorkState,
    earLoop fuel w = some w₂ →
    w₂.count + w₂.cuts.length = w.count + w.cuts.length ∧
    (w.count ≤ 3 → w₂ = w) ∧ (3 < w.count → w₂.count = 3) := by
  induction fuel with
  | zero =>
    intro w w₂ h
    unfold earLoop at h
    split at h
    · next hle =>
      cases Option.some.inj h
      exact ⟨rfl, fun _ => rfl, fun hgt => by omega⟩
    · exact Option.noConfusion h
  | succ k ih =>
    intro w w₂ h
    unfold earLoop at h
    split at h
    · next hle =>
      cases Option.some.inj h
      exact ⟨rfl, fun _ => rfl, fun hgt => by omega⟩
    · next hgt =>
      have hh := ih (earStep w) w₂ h
      rcases earStep_count_cuts w with ⟨hc, hcu⟩ | ⟨hc, hcu⟩
      · refine ⟨by rw [hh.1, hc, hcu], fun hle => absurd hle hgt, fun _ => ?_⟩
        exact hh.2.2 (by omega)
      · constructor
        · rw [hh.1, hc, hcu, List.length_append]
          simp only [List.length_cons, List.length_nil]
          omega
        · refine ⟨fun hle => absurd hle hgt, fun _ => ?_⟩
          by_cases h3 : 3 < (earStep w).count
          · exact hh.2.2 h3
          · have hw2 := hh.2.1 (by omega)
            rw [hw2, hc]
            omega

/-- C1 (amended): whenever `triangulate()` terminates successfully,
the boundary necessarily had `n ≥ 4` vertices and the recorded
diagonal list has exactly `n − 3` entries.  (On some simple polygons
— see the plus-polygon counterexample — the call never terminates, so
success cannot be asserted unconditionally.) -/
theorem C1_cut_count (s : PState) (fuel : Nat) (s₂ : PState)
    (h : triangulateF fuel s = some (none, s₂))
    (hsync : s.vertexCount = s.verts.length) :
    4 ≤ s.vertexCount ∧ s₂.cuts.length = s.vertexCount - 3 := by
  obtain ⟨hc, hadd, hclose, w, hloop, hs2⟩ := triangulateF_ok_split fuel s s₂ h
  have hfull := (Prod.mk.eta (p := addAll (posList s) (emptyPState s.nextOid))).symm
  rw [hadd] at hfull
  have hc0 := addAll_ok (posList s) (emptyPState s.nextOid) _ hfull
  have hcount0 : (addAll (posList s) (emptyPState s.nextOid)).2.vertexCount
      = s.verts.length := by
    rw [hc0]
    simp [addedState, emptyPState, posList]
  have hfull2 := (Prod.mk.eta
    (p := closeP (addAll (posList s) (emptyPState s.nextOid)).2)).symm
  rw [hclose] at hfull2
  obtain ⟨hc1eq, _, hge4⟩ := closeP_ok _ _ hfull2
  have hcount1 : (closeP (addAll (posList s) (emptyPState s.nextOid)).2).2.vertexCount
      = s.verts.length := by
    rw [hc1eq]
    exact hcount0
  have hge4n : 4 ≤ s.verts.length := by
    rw [← hcount0]
    exact hge4
  have hw0count : (mkWork (closeP (addAll (posList s) (emptyPState s.nextOid)).2).2).count
      = s.verts.length := hcount1
  have hspec := earLoop_spec fuel _ w hloop
  have hwc : w.count = 3 := hspec.2.2 (by rw [hw0count]; omega)
  have hsum := hspec.1
  rw [hw0count, hwc] at hsum
  have hwcuts : w.cuts.length = s.verts.length - 3 := by
    have : (mkWork (closeP (addAll (posList s) (emptyPState s.nextOid)).2).2).cuts = [] := rfl
    rw [this] at hsum
    simp at hsum
    omega
  refine ⟨by omega, ?_⟩
  rw [hs2]
  simp only [List.length_map]
  rw [hwcuts, hsync]

/-- C1, witness: the square terminates with `1 = 4 − 3` diagonal. -/
theorem C1_witness_square :
    4 ≤ sqClosed.vertexCount ∧
    ((triangulateF 9 sqClosed).getD (none, sqClosed)).2.cuts.length =
      sqClosed.vertexCount - 3 :=
  C1_cut_count sqClosed 9 ((triangulateF 9 sqClosed).getD (none, sqClosed)).2
    (by rfl) (by decide)

theorem posOf_append_fresh (h1 h2 : List (Nat × Pt)) (o : Nat)
    (hk : ∀ kv ∈ h2, kv.1 ≠ o) : posOf (h1 ++ h2) o = posOf h1 o := by
  unfold posOf
  rw [List.find?_append]
  cases hf : h1.find? (fun kv => kv.1 == o)
  · rw [Option.none_or]
    have h2n : h2.find? (fun kv => kv.1 == o) = none :=
      List.find?_eq_none.mpr (fun kv hkv => by simp [hk kv hkv])
    rw [h2n]
  · rfl

theorem copy_heap_keys_ge (s : PState)
    (hadd : (addAll (posList s) (emptyPState s.nextOid)).1 = none)
    (hclose : (closeP (addAll (posList s) (emptyPState s.nextOid)).2).1 = none) :
    ∀ kv ∈ (closeP (addAll (posList s) (emptyPState s.nextOid)).2).2.heap,
      s.nextOid ≤ kv.1 := by
  have hfull := (Prod.mk.eta (p := addAll (posList s) (emptyPState s.nextOid))).symm
  rw [hadd] at hfull
  have hc0 := addAll_ok (posList s) (emptyPState s.nextOid) _ hfull
  have hfull2 := (Prod.mk.eta
    (p := closeP (addAll (posList s) (emptyPState s.nextOid)).2)).symm
  rw [hclose] at hfull2
  obtain ⟨hc1eq, _, _⟩ := closeP_ok _ _ hfull2
  intro kv hkv
  rw [hc1eq] at hkv
  have hkv0 : kv ∈ (addAll (posList s) (emptyPState s.nextOid)).2.heap := hkv
  rw [hc0] at hkv0
  simp only [addedState, emptyPState, List.nil_append] at hkv0
  have := (List.of_mem_zip hkv0).1
  rw [List.mem_range'] at this
  obtain ⟨i, _, hi⟩ := this
  omega

/-- The frame condition of C9: the boundary's vertex list, count,
flags, and every boundary vertex's position are unchanged. -/
def BoundaryPreserved (s s₂ : PState) : Prop :=
  s₂.verts = s.verts ∧ s₂.vertexCount = s.vertexCount ∧
  s₂.closed = s.closed ∧ s₂.clockwise = s.clockwise ∧
  ∀ o ∈ s.verts, posOf s₂.heap o = posOf s.heap o

/-- C9: `triangulate()` never mutates the caller's boundary.  For any
state whose boundary vertex ids predate the allocator mark (true of
every state the builder produces), any returning `triangulate()` call
— successful or failing — leaves the vertex sequence, every boundary
vertex's position, the vertex count and both flags exactly as before;
only the recorded diagonal list (and freshly allocated copy objects)
may differ. -/
theorem C9_boundary_preserved (s : PState) (fuel : Nat) (r : Option Err × PState)
    (h : triangulateF fuel s = some r)
    (hfresh : ∀ o ∈ s.verts, o < s.nextOid) :
    BoundaryPreserved s r.2 := by
  rcases r with ⟨e, s₂⟩
  cases e with
  | some e0 =>
    rcases triangulateF_fail_shape fuel s e0 s₂ h with h2 | h2 <;> rw [h2] <;>
      exact ⟨rfl, rfl, rfl, rfl, fun o _ => rfl⟩
  | none =>
    obtain ⟨hc, hadd, hclose, w, hloop, hs2⟩ := triangulateF_ok_split fuel s s₂ h
    rw [hs2]
    refine ⟨rfl, rfl, rfl, rfl, fun o ho => ?_⟩
    apply posOf_append_fresh
    intro kv hkv
    have hge := copy_heap_keys_ge s hadd hclose kv hkv
    have hlt := hfresh o ho
    omega

/-- C9, witness: the square's boundary is untouched by `triangulate`. -/
theorem C9_witness_square : BoundaryPreserved sqClosed sqTriState :=
  C9_boundary_preserved sqClosed 9 ((triangulateF 9 sqClosed).getD (none, sqClosed))
    (by rfl) (by decide)

theorem posOf_append_right (h1 h2 : List (Nat × Pt)) (o : Nat)
    (hk : ∀ kv ∈ h1, kv.1 ≠ o) : posOf (h1 ++ h2) o = posOf h2 o := by
  unfold posOf
  rw [List.find?_append]
  have h1n : h1.find? (fun kv => kv.1 == o) = none :=
    List.find?_eq_none.mpr (fun kv hkv => by simp [hk kv hkv])
  rw [h1n, Option.none_or]

theorem find?_map_update (h : List (Nat × Pt)) (o c : Nat) (p : Pt) (hne : c ≠ o) :
    (h.map (fun kv => if kv.1 = o then (o, p) else kv)).find? (fun kv => kv.1 == c)
      = h.find? (fun kv => kv.1 == c) := by
  induction h with
  | nil => rfl
  | cons kv t ih =>
    rw [List.map_cons]
    by_cases hk : kv.1 = o
    · rw [if_pos hk]
      rw [List.find?_cons_of_neg _ (by simp [Ne.symm hne]),
          List.find?_cons_of_neg _ (by simp [hk, Ne.symm hne])]
      exact ih
    · rw [if_neg hk]
      by_cases hc : kv.1 = c
      · rw [List.find?_cons_of_pos _ (by simp [hc]),
            List.find?_cons_of_pos _ (by simp [hc])]
      · rw [List.find?_cons_of_neg _ (by simp [hc]),
            List.find?_cons_of_neg _ (by simp [hc])]
        exact ih

theorem posOf_movePos_ne (s₂ : PState) (o c : Nat) (p : Pt) (hne : c ≠ o) :
    posOf (movePos s₂ o p).heap c = posOf s₂.heap c := by
  unfold posOf movePos
  rw [find?_map_update s₂.heap o c p hne]

theorem posOf_cons_ne (k : Nat) (pv : Pt) (h : List (Nat × Pt)) (o : Nat)
    (hne : k ≠ o) : posOf ((k, pv) :: h) o = posOf h o := by
  unfold posOf
  rw [List.find?_cons_of_neg _ (by simp [hne])]

theorem map_posOf_zip (ps : List Pt) : ∀ b : Nat,
    (List.range' b ps.length).map (posOf ((List.range' b ps.length).zip ps)) = ps := by
  induction ps with
  | nil => intro b; rfl
  | cons p rest ih =>
    intro b
    rw [List.length_cons, List.range'_succ, List.zip_cons_cons, List.map_cons]
    have hhead : posOf ((b, p) :: (List.range' (b + 1) rest.length).zip rest) b = p := by
      unfold posOf
      rw [List.find?_cons_of_pos _ (by simp)]
    rw [hhead]
    have htail : (List.range' (b + 1) rest.length).map
        (posOf ((b, p) :: (List.range' (b + 1) rest.length).zip rest))
        = (List.range' (b + 1) rest.length).map
          (posOf ((List.range' (b + 1) rest.length).zip rest)) := by
      apply List.map_congr_left
      intro o ho
      rw [List.mem_range'] at ho
      obtain ⟨i, _, rfl⟩ := ho
      exact posOf_cons_ne b p _ _ (by omega)
    rw [htail, ih (b + 1)]

theorem neighbors_mem (w : WorkState) (hne : w.cycle ≠ []) :
    (neighbors w).1 ∈ w.cycle ∧ (neighbors w).2 ∈ w.cycle := by
  simp only [neighbors]
  have hlen : 0 < w.cycle.length := List.length_pos.mpr hne
  constructor
  · have hidx : (findIdxOid w.cycle w.cur.1 + 1) % w.cycle.length < w.cycle.length :=
      Nat.mod_lt _ hlen
    rw [List.getD_eq_getElem _ _ hidx]
    exact List.getElem_mem hidx
  · have hidx : (findIdxOid w.cycle w.cur.1 + w.cycle.length - 1) % w.cycle.length
      < w.cycle.length := Nat.mod_lt _ hlen
    rw [List.getD_eq_getElem _ _ hidx]
    exact List.getElem_mem hidx

theorem next_mem_eraseIdx (l : List WVtx) (i : Nat) (hi : i < l.length)
    (h2 : 2 ≤ l.length) :
    l.getD ((i + 1) % l.length) (0, (0, 0)) ∈ l.eraseIdx i := by
  have hlen : 0 < l.length := by omega
  have hj : (i + 1) % l.length < l.length := Nat.mod_lt _ hlen
  rw [List.getD_eq_getElem _ _ hj]
  have hlen1 : (l.eraseIdx i).length = l.length - 1 := by
    rw [List.length_eraseIdx]
    simp [hi]
  by_cases hcase : (i + 1) % l.length < i
  · have hj1 : (i + 1) % l.length < (l.eraseIdx i).length := by omega
    have hg := List.getElem_eraseIdx_of_lt l i ((i + 1) % l.length) hj1 hcase
    rw [← hg]
    exact List.getElem_mem hj1
  · have hji : (i + 1) % l.length ≠ i := by
      by_cases hin : i + 1 < l.length
      · rw [Nat.mod_eq_of_lt hin]
        omega
      · have hieq : i + 1 = l.length := by omega
        rw [hieq, Nat.mod_self]
        omega
    have hij : i < (i + 1) % l.length := by omega
    have hj1 : (i + 1) % l.length - 1 < (l.eraseIdx i).length := by omega
    have hg := List.getElem_eraseIdx_of_ge l i ((i + 1) % l.length - 1) hj1 (by omega)
    have hb : (i + 1) % l.length - 1 + 1 < l.length := by omega
    have hrw : (i + 1) % l.length - 1 + 1 = (i + 1) % l.length := by omega
    have hEq : l[(i + 1) % l.length] = l[(i + 1) % l.length - 1 + 1] := by
      have hq : l[(i + 1) % l.length]? = l[(i + 1) % l.length - 1 + 1]? := by rw [hrw]
      rw [List.getElem?_eq_getElem hj, List.getElem?_eq_getElem hb] at hq
      exact Option.some.inj hq
    have hmem : (l.eraseIdx i)[(i + 1) % l.length - 1] ∈ l.eraseIdx i :=
      List.getElem_mem hj1
    rw [hg] at hmem
    rw [hEq]
    exact hmem

theorem earStep_winv (init : List WVtx) (w : WorkState)
    (h3 : 3 < w.count) (hw : WInv init w) : WInv init (earStep w) := by
  obtain ⟨hsync, hidx, hcyc, hcuts⟩ := hw
  have hne : w.cycle ≠ [] := by
    intro hnil
    rw [hnil] at hsync
    simp at hsync
    omega
  obtain ⟨hNmem, hPmem⟩ := neighbors_mem w hne
  rcases earStep_shape w with h | h <;> rw [h]
  · refine ⟨hsync, ?_, hcyc, hcuts⟩
    exact List.findIdx_lt_length_of_exists ⟨(neighbors w).1, hNmem, by simp⟩
  · have h2 : 2 ≤ w.cycle.length := by omega
    have herase : (w.cycle.eraseIdx (findIdxOid w.cycle w.cur.1)).length
        = w.cycle.length - 1 := by
      rw [List.length_eraseIdx]
      simp [hidx]
    have hNg : (neighbors w).1 ∈ w.cycle.eraseIdx (findIdxOid w.cycle w.cur.1) := by
      have := next_mem_eraseIdx w.cycle (findIdxOid w.cycle w.cur.1) hidx h2
      exact this
    refine ⟨?_, ?_, ?_, ?_⟩
    · show w.count - 1 = (w.cycle.eraseIdx (findIdxOid w.cycle w.cur.1)).length
      rw [herase]
      omega
    · exact List.findIdx_lt_length_of_exists ⟨(neighbors w).1, hNg, by simp⟩
    · intro v hv
      exact hcyc v (List.eraseIdx_subset _ _ hv)
    · intro pr hpr
      rcases List.mem_append.mp hpr with hin | hin
      · exact hcuts pr hin
      · simp only [List.mem_singleton] at hin
        rw [hin]
        exact ⟨hcyc _ hPmem, hcyc _ hNmem⟩

theorem earLoop_winv (init : List WVtx) (fuel : Nat) : ∀ w w₂,
    earLoop fuel w = some w₂ → WInv init w → WInv init w₂ := by
  induction fuel with
  | zero =>
    intro w w₂ h hw
    unfold earLoop at h
    split at h
    · cases Option.some.inj h; exact hw
    · exact Option.noConfusion h
  | succ k ih =>
    intro w w₂ h hw
    unfold earLoop at h
    split at h
    · cases Option.some.inj h; exact hw
    · next hgt => exact ih _ _ h (earStep_winv init w (by omega) hw)

theorem mkWork_winv (c : PState) (hsync : c.vertexCount = c.verts.length)
    (hne : c.verts ≠ []) : WInv (mkWork c).cycle (mkWork c) := by
  refine ⟨?_, ?_, fun v hv => hv, fun pr hpr => by simp [mkWork] at hpr⟩
  · show c.vertexCount = (c.verts.map _).length
    rw [List.length_map]
    exact hsync
  · have hcur : (mkWork c).cur = (mkWork c).cycle.headD (0, (0, 0)) := rfl
    cases hcyc : (mkWork c).cycle with
    | nil =>
      exfalso
      exact hne (List.map_eq_nil_iff.mp hcyc)
    | cons a t =>
      rw [hcur, hcyc]
      simp [findIdxOid, List.findIdx_cons, List.headD_cons]

/-- C10: the diagonal endpoints recorded by a successful
`triangulate()` are the fresh vertex objects of the disposable
working copy, not the original boundary's vertices: at return each
endpoint's coordinates equal those of a boundary vertex, the endpoint
ids are disjoint from the boundary's ids, and subsequently dragging
any original vertex leaves every recorded endpoint's coordinates
unchanged.  (Hypotheses: the boundary's vertex ids and heap keys
predate the allocator mark, as holds for every builder-produced
state.) -/
theorem C10_cut_endpoints (s : PState) (fuel : Nat) (s₂ : PState)
    (h : triangulateF fuel s = some (none, s₂))
    (hvfresh : ∀ o ∈ s.verts, o < s.nextOid)
    (hhfresh : ∀ kv ∈ s.heap, kv.1 < s.nextOid) :
    CutsFresh s s₂ := by
  obtain ⟨hc, hadd, hclose, w, hloop, hs2⟩ := triangulateF_ok_split fuel s s₂ h
  have hfull := (Prod.mk.eta (p := addAll (posList s) (emptyPState s.nextOid))).symm
  rw [hadd] at hfull
  have hc0 := addAll_ok (posList s) (emptyPState s.nextOid) _ hfull
  have hfull2 := (Prod.mk.eta
    (p := closeP (addAll (posList s) (emptyPState s.nextOid)).2)).symm
  rw [hclose] at hfull2
  obtain ⟨hc1eq, _, hge4⟩ := closeP_ok _ _ hfull2
  set c1 : PState := (closeP (addAll (posList s) (emptyPState s.nextOid)).2).2
    with hc1def
  have hverts : c1.verts = List.range' s.nextOid (posList s).length := by
    rw [hc1eq, hc0]
    simp [addedState, emptyPState]
  have hheap : c1.heap = (List.range' s.nextOid (posList s).length).zip (posList s) := by
    rw [hc1eq, hc0]
    simp [addedState, emptyPState]
  have hcount : c1.vertexCount = (posList s).length := by
    rw [hc1eq, hc0]
    simp [addedState, emptyPState]
  have hge4n : 4 ≤ (posList s).length := by
    have h0 : (addAll (posList s) (emptyPState s.nextOid)).2.vertexCount
        = (posList s).length := by
      rw [hc0]
      simp [addedState, emptyPState]
    rw [← h0]
    exact hge4
  have hwinv0 := mkWork_winv c1
    (by rw [hcount, hverts, List.length_range'])
    (by
      rw [hverts]
      intro hnil
      have hlen := congrArg List.length hnil
      rw [List.length_range', List.length_nil] at hlen
      omega)
  have hwinv := earLoop_winv (mkWork c1).cycle fuel (mkWork c1) w hloop hwinv0
  have hinit : ∀ u : WVtx, u ∈ (mkWork c1).cycle →
      s.nextOid ≤ u.1 ∧ u.1 ∈ c1.verts ∧ u.2 = posOf c1.heap u.1 := by
    intro u hu
    simp only [mkWork, List.mem_map] at hu
    obtain ⟨o, ho, rfl⟩ := hu
    have hob : s.nextOid ≤ o := by
      have ho2 := ho
      rw [hverts, List.mem_range'] at ho2
      obtain ⟨i, _, hoe⟩ := ho2
      omega
    exact ⟨hob, ho, rfl⟩
  have posmem : ∀ o2, o2 ∈ c1.verts → posOf c1.heap o2 ∈ posList s := by
    intro o2 ho2
    have hmap : c1.verts.map (posOf c1.heap) = posList s := by
      rw [hverts, hheap]
      exact map_posOf_zip (posList s) s.nextOid
    rw [← hmap]
    exact List.mem_map_of_mem _ ho2
  obtain ⟨_, _, _, hcutsinv⟩ := hwinv
  have hcuts2 : s₂.cuts = w.cuts.map (fun pr => (pr.1.1, pr.2.1)) := by rw [hs2]
  have hheap2 : s₂.heap = s.heap ++ c1.heap := by rw [hs2]
  refine ⟨?_, ?_, ?_⟩ <;> intro pr hpr <;>
    (rw [hcuts2, List.mem_map] at hpr
     obtain ⟨pr0, hpr0, hpre⟩ := hpr
     obtain ⟨h1, h2⟩ := hcutsinv pr0 hpr0
     obtain ⟨hb1, hv1, hp1⟩ := hinit _ h1
     obtain ⟨hb2, hv2, hp2⟩ := hinit _ h2
     rw [← hpre])
  · constructor
    · rw [hheap2,
        posOf_append_right _ _ _ (fun kv hkv => by have := hhfresh kv hkv; omega)]
      exact posmem _ hv1
    · rw [hheap2,
        posOf_append_right _ _ _ (fun kv hkv => by have := hhfresh kv hkv; omega)]
      exact posmem _ hv2
  · constructor
    · intro hmem
      have := hvfresh _ hmem
      omega
    · intro hmem
      have := hvfresh _ hmem
      omega
  · intro o ho p
    have hne1 : pr0.1.1 ≠ o := by
      have := hvfresh o ho
      omega
    have hne2 : pr0.2.1 ≠ o := by
      have := hvfresh o ho
      omega
    exact ⟨posOf_movePos_ne s₂ o _ p hne1, posOf_movePos_ne s₂ o _ p hne2⟩

/-- C10, witness: the triangulated square's single diagonal has fresh
endpoints carrying the coordinates of boundary vertices, immune to
subsequent drags of the original vertices. -/
theorem C10_witness_square : CutsFresh sqClosed sqTriState :=
  C10_cut_endpoints sqClosed 9 sqTriState (by rfl) (by decide) (by decide)

end Cutting
